import Mathlib

/-!
Verification of `devito/symbolics/inspection.py`: the occurrence counter
`count`, the operation-count estimator `estimate_cost`, and the memory-traffic
estimator `estimate_memory`, over a shallow embedding of SymPy expression
trees.  The tree-search helpers (`search`, `retrieve_ops`, `retrieve_indexed`,
`q_timedimension`) live in `devito/symbolics/search.py` and
`devito/symbolics/queries.py`, which are not part of the sources at hand; they
are modelled from the specification's description of the Tree Search Utility.
-/

/-- SymPy expression nodes as manipulated by `inspection.py`: named symbols
(optionally tagged as the time dimension), integer literals, indexed array
accesses, n-ary operators and function calls. -/
inductive Expr where
  | sym (name : String) (isTime : Bool)
  | int (n : Int)
  | indexed (base : String) (indices : List Expr)
  | op (kind : String) (args : List Expr)
  | func (fname : String) (args : List Expr)
deriving Repr

/-- Direct children (sympy `args`) of a node, i.e. the sub-expressions a full
tree traversal descends into. -/
def children : Expr → List Expr
  | .sym _ _ => []
  | .int _ => []
  | .indexed _ idxs => idxs
  | .op _ args => args
  | .func _ args => args

lemma sizeOf_lt_of_mem_children {c e : Expr} (h : c ∈ children e) : sizeOf c < sizeOf e := by
  cases e with
  | sym n b => simp [children] at h
  | int n => simp [children] at h
  | indexed b idxs =>
      simp only [children] at h
      have := List.sizeOf_lt_of_mem h
      simp only [Expr.indexed.sizeOf_spec]
      omega
  | op k args =>
      simp only [children] at h
      have := List.sizeOf_lt_of_mem h
      simp only [Expr.op.sizeOf_spec]
      omega
  | func f args =>
      simp only [children] at h
      have := List.sizeOf_lt_of_mem h
      simp only [Expr.func.sizeOf_spec]
      omega

/-- Strong induction over expression trees by way of their children. -/
theorem Expr.strong_ind (P : Expr → Prop)
    (step : ∀ e, (∀ c ∈ children e, P c) → P e) : ∀ e, P e := by
  have key : ∀ n, ∀ e : Expr, sizeOf e ≤ n → P e := by
    intro n
    induction n with
    | zero =>
        intro e he
        exact step e (fun c hc =>
          absurd (lt_of_lt_of_le (sizeOf_lt_of_mem_children hc) he) (Nat.not_lt_zero _))
    | succ n ih =>
        intro e he
        exact step e (fun c hc => ih c (by
          have := sizeOf_lt_of_mem_children hc
          omega))
  intro e
  exact key (sizeOf e) e le_rfl

mutual

/-- Structural (value-based) equality test on expression trees, mirroring
sympy's structural equality and hashing used for set/Counter membership. -/
def Expr.beq : Expr → Expr → Bool
  | .sym n b, .sym n' b' => n == n' && b == b'
  | .int n, .int n' => n == n'
  | .indexed b i, .indexed b' i' => b == b' && Expr.beqL i i'
  | .op k a, .op k' a' => k == k' && Expr.beqL a a'
  | .func f a, .func f' a' => f == f' && Expr.beqL a a'
  | _, _ => false

/-- Pointwise structural equality on lists of expression trees. -/
def Expr.beqL : List Expr → List Expr → Bool
  | [], [] => true
  | a :: as, b :: bs => Expr.beq a b && Expr.beqL as bs
  | _, _ => false

end

lemma Expr.beqL_iff (as : List Expr)
    (ih : ∀ x ∈ as, ∀ y, Expr.beq x y = true ↔ x = y) :
    ∀ bs, Expr.beqL as bs = true ↔ as = bs := by
  induction as with
  | nil => intro bs; cases bs <;> simp [Expr.beqL]
  | cons a as ihl =>
      intro bs
      cases bs with
      | nil => simp [Expr.beqL]
      | cons b bs =>
          rw [Expr.beqL, Bool.and_eq_true]
          rw [ih a (List.mem_cons_self a as) b]
          rw [ihl (fun x hx y => ih x (List.mem_cons_of_mem a hx) y) bs]
          simp

lemma Expr.beq_iff (a : Expr) : ∀ b, Expr.beq a b = true ↔ a = b := by
  induction a using Expr.strong_ind with
  | step a ih =>
      intro b
      cases a <;> cases b <;>
        simp only [Expr.beq, Bool.and_eq_true, beq_iff_eq] <;>
        try simp
      case step.indexed.indexed b idxs b' idxs' =>
          rw [Expr.beqL_iff idxs (fun x hx y => ih x (by simpa [children] using hx) y) idxs']
          simp
      case step.op.op k args k' args' =>
          rw [Expr.beqL_iff args (fun x hx y => ih x (by simpa [children] using hx) y) args']
          simp
      case step.func.func f args f' args' =>
          rw [Expr.beqL_iff args (fun x hx y => ih x (by simpa [children] using hx) y) args']
          simp

instance : DecidableEq Expr :=
  fun a b => decidable_of_iff (Expr.beq a b = true) (Expr.beq_iff a b)

mutual

/-- Preorder listing of all sub-expression positions of a tree, one entry per
occurrence (the node itself first, then every position of its children). -/
def nodes : Expr → List Expr
  | .sym n b => [.sym n b]
  | .int n => [.int n]
  | .indexed b idxs => .indexed b idxs :: nodesL idxs
  | .op k args => .op k args :: nodesL args
  | .func f args => .func f args :: nodesL args

/-- All sub-expression positions of a list of trees, in order. -/
def nodesL : List Expr → List Expr
  | [] => []
  | e :: es => nodes e ++ nodesL es

end

/-- Modelled from the spec: the Tree Search Utility's
`search(expr, query, 'all', ...)`, returning every node of the tree satisfying
the query, one entry per occurrence (the order of the returned sequence is
irrelevant to `inspection.py`, which only counts, sums or builds sets over
it). -/
def searchAll (q : Expr → Bool) (e : Expr) : List Expr :=
  (nodes e).filter q

/-- Predicate: the node is an integer literal (sympy `is_Integer`). -/
def Expr.isInteger : Expr → Bool
  | .int _ => true
  | _ => false

/-- Predicate: the node is an n-ary operation or a function call, i.e. the
kind of node retrieved by `retrieve_ops` (terminals excluded). -/
def Expr.isOpNode : Expr → Bool
  | .op _ _ => true
  | .func _ _ => true
  | _ => false

/-- Predicate: the node is an indexed array access (sympy `Indexed`). -/
def Expr.isIndexedNode : Expr → Bool
  | .indexed _ _ => true
  | _ => false

/-- Predicate: the node is an atom (a named symbol or an integer literal),
as collected by sympy's `expr.atoms()`. -/
def Expr.isAtom : Expr → Bool
  | .sym _ _ => true
  | .int _ => true
  | _ => false

/-- Modelled from the spec: `q_timedimension` from `devito/symbolics/queries.py`
(the `is_time_dimension` predicate), true exactly on a symbol tagged as the
time dimension. -/
def q_timedimension : Expr → Bool
  | .sym _ isTime => isTime
  | _ => false

/-- Modelled from the spec: `retrieve_ops` from `devito/symbolics/search.py`:
every Operation and Function-Call node within the tree, terminals excluded. -/
def retrieve_ops (e : Expr) : List Expr :=
  searchAll Expr.isOpNode e

/-- Modelled from the spec: `retrieve_indexed` from `devito/symbolics/search.py`:
every Indexed-Access node within the tree (nested accesses included). -/
def retrieve_indexed (e : Expr) : List Expr :=
  searchAll Expr.isIndexedNode e

/-- Embedding of sympy's `expr.atoms(Indexed)`: all Indexed sub-expressions of
the tree, the tree itself included when it is an indexed access. -/
def atomsIndexed (e : Expr) : List Expr :=
  searchAll Expr.isIndexedNode e

/-- Embedding of sympy's `expr.atoms()`: all atomic leaves of the tree. (The
base label of an indexed access is not a leaf of this embedding; it is never
the time dimension, so `estimate_memory`'s filter is unaffected.) -/
def exprAtoms (e : Expr) : List Expr :=
  searchAll Expr.isAtom e

/-- The occurrence counter `count(exprs, query)` of `inspection.py`: a Counter
summed over `search(expr, query, 'all', 'bfs')` for each supplied tree.  The
returned dict is modelled as its counting function; a key is present in the
Python dict exactly when its count here is positive. -/
def count (exprs : List Expr) (query : Expr → Bool) : Expr → Nat :=
  fun k => (exprs.flatMap (searchAll query)).count k

mutual

/-- Specification-side notion for the occurrence counter: the number of
occurrences of the node `k` among all sub-expression positions of `e`,
irrespective of any query. -/
def occurrences (k : Expr) : Expr → Nat
  | .sym n b => if Expr.sym n b = k then 1 else 0
  | .int n => if Expr.int n = k then 1 else 0
  | .indexed b idxs => (if Expr.indexed b idxs = k then 1 else 0) + occurrencesL k idxs
  | .op o args => (if Expr.op o args = k then 1 else 0) + occurrencesL k args
  | .func f args => (if Expr.func f args = k then 1 else 0) + occurrencesL k args

/-- Total number of occurrences of `k` across a list of trees. -/
def occurrencesL (k : Expr) : List Expr → Nat
  | [] => 0
  | e :: es => occurrences k e + occurrencesL k es

end

/-- An equation `Eq(lhs, rhs)` (sympy `Relational` with `is_Equality`). -/
structure Equation where
  lhs : Expr
  rhs : Expr
deriving DecidableEq, Repr

/-- A Python object that may appear inside the collections handed to the
estimators: a plain SymPy expression, a SymPy equation, or some other object
(neither — e.g. a plain int or string), on which expression-level attribute
accesses such as `.is_Equality`, `.rhs` and `.lhs` raise `AttributeError`. -/
inductive Item where
  | exprI (e : Expr)
  | eqI (e : Equation)
  | bad
deriving Repr

/-- The externally supplied argument of `estimate_cost`: the dynamic-type
probing of lines 29-42 of `inspection.py` distinguishes a single non-iterable
object, a list, a dict, and a list of dicts. -/
inductive Handle where
  | single (it : Item)
  | listH (xs : List Item)
  | dictH (m : List (String × Item))
  | listDictH (ms : List (List (String × Item)))

/-- The input normalization of `estimate_cost` (lines 29-42): wrap a single
object into a one-element list, take a dict's values, concatenate the values
of a list of dicts, and leave a plain list unchanged. -/
def normalizeHandle : Handle → List Item
  | .single it => [it]
  | .listH xs => xs
  | .dictH m => m.map Prod.snd
  | .listDictH ms => (ms.map (fun d => d.map Prod.snd)).flatten

/-- Line 48 of `inspection.py`: `i.rhs if i.is_Equality else i`.  On an object
that is not a SymPy expression the attribute access raises (`none`), which the
surrounding bare `except` of `estimate_cost` turns into the unavailable
result. -/
def stripEquality : Item → Option Expr
  | .exprI e => some e
  | .eqI e => some e.rhs
  | .bad => none

/-- The weight table `external_functions = {sin: 50, cos: 50}` of
`estimate_cost`, keyed by function name. -/
def external_functions : String → Option Int := fun f =>
  if f = "sin" ∨ f = "cos" then some 50 else none

/-- The contribution of one retrieved node to the flop count (lines 51-58):
a function call costs its configured weight (default 1) when
`estimate_functions` is enabled and 1 otherwise; an n-ary operation with `k`
operands of which `m` are integer literals costs `k - (1 + m)`. -/
def opFlops (estimate_functions : Bool) (o : Expr) : Int :=
  match o with
  | .func f _ => if estimate_functions then (external_functions f).getD 1 else 1
  | .op _ args => (args.length : Int) - (1 + ((args.filter Expr.isInteger).length : Int))
  | _ => 0

/-- Condition under which an operation node's contribution cannot go negative:
it has at least one operand that is not an integer literal (function calls and
terminals satisfy it vacuously). -/
def hasNonIntOperand : Expr → Bool
  | .op _ args => args.any (fun a => !a.isInteger)
  | _ => true

/-- The operation-count estimator `estimate_cost(handle, estimate_functions)`
of `inspection.py`: normalize the input, replace equations by their rhs,
retrieve all operation nodes and sum their contributions; any failure of the
guarded block (lines 43-59) is caught by the bare `except`, which warns and
returns `None`, modelled as `none`. -/
def estimate_cost (handle : Handle) (estimate_functions : Bool) : Option Int :=
  match (normalizeHandle handle).mapM stripEquality with
  | none => none
  | some exprs =>
      some (((exprs.map retrieve_ops).flatten).foldl
        (fun acc o => acc + opFlops estimate_functions o) 0)

/-- The distinctness key produced by `access`: either a full indexed-access
node (a sympy `Indexed`) or a base array identity (a sympy `IndexedBase`);
values of the two sympy types are never equal, hence a sum type. -/
inductive AccessKey where
  | full (e : Expr)
  | base (b : String)
deriving DecidableEq, Repr

/-- The `access` helper of `estimate_memory` (lines 83-89): an irregular
access (some index contains a nested indexed access, detected through
`i.atoms(Indexed)`) keys by the full node; a regular access keys by its base.
(The helper asserts its argument is an Indexed; it is only ever applied to
results of `retrieve_indexed`, so the last match arm is unreachable.) -/
def access (symbol : Expr) : AccessKey :=
  match symbol with
  | .indexed b idxs =>
      if idxs.any (fun i => !(atomsIndexed i).isEmpty) then .full (.indexed b idxs)
      else .base b
  | e => .full e

mutual

/-- Straight from the spec's wording: an expression contains an Indexed-Access
(it is one, or one occurs somewhere inside it). -/
def containsIndexed : Expr → Bool
  | .sym _ _ => false
  | .int _ => false
  | .indexed _ _ => true
  | .op _ args => containsIndexedL args
  | .func _ args => containsIndexedL args

/-- Some expression of the list contains an Indexed-Access. -/
def containsIndexedL : List Expr → Bool
  | [] => false
  | e :: es => containsIndexed e || containsIndexedL es

end

/-- The time-dependence filter of lines 97-98: keep an access when any of its
atoms is the time dimension. -/
def timeFilter (s : Expr) : Bool :=
  (exprAtoms s).any q_timedimension

/-- The filter selected from the mode (lines 97-100): the time-dependence
filter under the idealized modes, and the identity (every sympy `Indexed` is
truthy, so everything is kept) under `realistic`. -/
def modeFilter (mode : String) : Expr → Bool :=
  if mode = "ideal" ∨ mode = "ideal_with_stores" then timeFilter else fun _ => true

/-- The failures `estimate_memory` can raise: the `assert` on the mode
(line 81), and the `AttributeError` from `e.rhs`/`e.lhs` on an element that is
not an equation (lines 101-102). -/
inductive MemError where
  | assertionError
  | attributeError
deriving DecidableEq, Repr

/-- Attribute access `e.rhs`/`e.lhs` on an element of the handle: succeeds
exactly on an equation. -/
def Item.asEquation : Item → Option Equation
  | .eqI e => some e
  | _ => none

/-- Line 101: the set of indexed accesses over all equations' right-hand
sides. -/
def indexedReads (eqs : List Equation) : Finset Expr :=
  (eqs.flatMap (fun e => retrieve_indexed e.rhs)).toFinset

/-- Line 102: the set of indexed accesses over all equations' left-hand
sides. -/
def indexedWrites (eqs : List Equation) : Finset Expr :=
  (eqs.flatMap (fun e => retrieve_indexed e.lhs)).toFinset

/-- Lines 103-104: filter a set of accesses and map it through `access`,
producing the set of distinctness keys. -/
def keySet (s : Finset Expr) (filt : Expr → Bool) : Finset AccessKey :=
  (s.filter (fun x => filt x = true)).image access

/-- The memory-traffic estimator `estimate_memory(handle, mode)` of
`inspection.py`.  The handle is the already-sequenced input (the iter-probe of
lines 91-95 wraps a single object into a one-element list).  The mode assert
fires before anything is computed; an element without `rhs`/`lhs` raises
`AttributeError`; otherwise the mode combines the read/write key-set sizes. -/
def estimate_memory (handle : List Item) (mode : String) : Except MemError Nat :=
  if mode = "ideal" ∨ mode = "ideal_with_stores" ∨ mode = "realistic" then
    match handle.mapM Item.asEquation with
    | none => .error .attributeError
    | some eqs =>
        let reads := keySet (indexedReads eqs) (modeFilter mode)
        let writes := keySet (indexedWrites eqs) (modeFilter mode)
        if mode = "ideal" then .ok (reads ∪ writes).card
        else .ok (reads.card + writes.card)
  else .error .assertionError

section SupportLemmas

variable {α : Type} [DecidableEq α]

lemma count_filter_eq (l : List α) (p : α → Bool) (a : α) :
    (l.filter p).count a = if p a = true then l.count a else 0 := by
  induction l with
  | nil => simp
  | cons x xs ih =>
      by_cases hxa : x = a
      · subst hxa
        cases hpx : p x with
        | true => simp [List.filter_cons, hpx, ih]
        | false => simp [List.filter_cons, hpx, ih]
      · have hne : a ≠ x := fun h => hxa h.symm
        cases hpx : p x with
        | true => simp [List.filter_cons, hpx, ih, List.count_cons_of_ne hne]
        | false => simp [List.filter_cons, hpx, ih, List.count_cons_of_ne hne]

lemma count_flatMap {β : Type} (l : List β) (f : β → List α) (a : α) :
    (l.flatMap f).count a = (l.map (fun x => (f x).count a)).sum := by
  induction l with
  | nil => simp
  | cons x xs ih => simp [List.flatMap_cons, List.count_append, ih]

lemma foldl_add_eq {β : Type} (f : β → Int) (l : List β) (a : Int) :
    l.foldl (fun acc o => acc + f o) a = a + (l.map f).sum := by
  induction l generalizing a with
  | nil => simp
  | cons x xs ih => simp [List.foldl_cons, ih, add_assoc]

omit [DecidableEq α] in
lemma filter_length_lt_of_exists {l : List α} {p : α → Bool} {a : α}
    (ha : a ∈ l) (hpa : p a = false) : (l.filter p).length < l.length := by
  induction l with
  | nil => simp at ha
  | cons x xs ih =>
      rcases List.mem_cons.mp ha with h | h
      · subst h
        rw [List.filter_cons, hpa]
        exact Nat.lt_succ_of_le (List.length_filter_le p xs)
      · have hlt := ih h
        cases hpx : p x <;> rw [List.filter_cons, hpx] <;> simp <;> omega

end SupportLemmas

lemma nodesL_eq (l : List Expr) : nodesL l = l.flatMap nodes := by
  induction l with
  | nil => rfl
  | cons e es ih => rw [nodesL, ih, List.flatMap_cons]

lemma nodes_eq (e : Expr) : nodes e = e :: (children e).flatMap nodes := by
  cases e <;> simp [nodes, children, nodesL_eq]

lemma occurrencesL_eq (k : Expr) (l : List Expr) :
    occurrencesL k l = (l.map (occurrences k)).sum := by
  induction l with
  | nil => rfl
  | cons e es ih => rw [occurrencesL, ih, List.map_cons, List.sum_cons]

lemma occurrences_eq (k e : Expr) :
    occurrences k e = (if e = k then 1 else 0) + ((children e).map (occurrences k)).sum := by
  cases e <;> simp [occurrences, children, occurrencesL_eq]

lemma occurrences_eq_count (k : Expr) : ∀ e, occurrences k e = (nodes e).count k := by
  intro e
  induction e using Expr.strong_ind with
  | step e ih =>
      rw [occurrences_eq, nodes_eq, List.count_cons, count_flatMap]
      have hmap : (children e).map (fun c => (nodes c).count k) =
          (children e).map (occurrences k) := by
        apply List.map_congr_left
        intro c hc
        exact (ih c hc).symm
      rw [hmap]
      by_cases hek : e = k
      · subst hek; simp [Nat.add_comm]
      · simp [hek, beq_iff_eq]

lemma containsIndexedL_eq (l : List Expr) :
    containsIndexedL l = l.any containsIndexed := by
  induction l with
  | nil => rfl
  | cons e es ih => rw [containsIndexedL, ih, List.any_cons]

lemma nodes_atom {a : Expr} (h : Expr.isAtom a = true) : nodes a = [a] := by
  cases a with
  | sym n b => rfl
  | int n => rfl
  | indexed b i => simp [Expr.isAtom] at h
  | op k a => simp [Expr.isAtom] at h
  | func f a => simp [Expr.isAtom] at h

lemma atom_not_opNode {a : Expr} (h : Expr.isAtom a = true) : Expr.isOpNode a = false := by
  cases a <;> simp_all [Expr.isAtom, Expr.isOpNode]

lemma flatMap_nodes_atoms_filter (args : List Expr)
    (h : ∀ a ∈ args, Expr.isAtom a = true) :
    (args.flatMap nodes).filter Expr.isOpNode = [] := by
  rw [List.filter_eq_nil_iff]
  intro x hx
  rw [List.mem_flatMap] at hx
  rcases hx with ⟨a, ha, hxa⟩
  rw [nodes_atom (h a ha), List.mem_singleton] at hxa
  rw [hxa]
  simp [atom_not_opNode (h a ha)]

lemma retrieve_ops_op_terminal (kind : String) (args : List Expr)
    (h : ∀ a ∈ args, Expr.isAtom a = true) :
    retrieve_ops (.op kind args) = [.op kind args] := by
  rw [retrieve_ops, searchAll, nodes_eq]
  simp only [children]
  rw [List.filter_cons, flatMap_nodes_atoms_filter args h]
  simp [Expr.isOpNode]

lemma retrieve_ops_func_terminal (f : String) (args : List Expr)
    (h : ∀ a ∈ args, Expr.isAtom a = true) :
    retrieve_ops (.func f args) = [.func f args] := by
  rw [retrieve_ops, searchAll, nodes_eq]
  simp only [children]
  rw [List.filter_cons, flatMap_nodes_atoms_filter args h]
  simp [Expr.isOpNode]

lemma estimate_cost_some (handle : Handle) (ef : Bool) (exprs : List Expr)
    (h : (normalizeHandle handle).mapM stripEquality = some exprs) :
    estimate_cost handle ef =
      some ((((exprs.map retrieve_ops).flatten).map (opFlops ef)).sum) := by
  rw [estimate_cost, h]
  dsimp only
  rw [foldl_add_eq]
  simp

lemma estimate_cost_single (e : Expr) (ef : Bool) :
    estimate_cost (.single (.exprI e)) ef =
      some (((retrieve_ops e).map (opFlops ef)).sum) := by
  rw [estimate_cost_some (.single (.exprI e)) ef [e] rfl]
  simp

lemma opFlops_nonneg (ef : Bool) (o : Expr) (h : hasNonIntOperand o = true) :
    0 ≤ opFlops ef o := by
  cases o with
  | op k args =>
      rw [opFlops]
      rw [hasNonIntOperand, List.any_eq_true] at h
      rcases h with ⟨a, ha, hna⟩
      have hlt := filter_length_lt_of_exists ha (by simpa using hna)
      omega
  | func f args =>
      rw [opFlops]
      cases ef with
      | false => simp
      | true =>
          simp only [external_functions]
          by_cases hf : f = "sin" ∨ f = "cos" <;> simp [hf]
  | sym n b => simp [opFlops]
  | int n => simp [opFlops]
  | indexed b i => simp [opFlops]

lemma mapM_stripEquality_mem {l : List Item} {es : List Expr}
    (h : l.mapM stripEquality = some es) :
    ∀ e ∈ es, ∃ it ∈ l, stripEquality it = some e := by
  induction l generalizing es with
  | nil =>
      rw [List.mapM_nil] at h
      cases h
      simp
  | cons x xs ih =>
      rw [List.mapM_cons] at h
      cases hx : stripEquality x with
      | none => rw [hx] at h; simp at h
      | some y =>
          rw [hx] at h
          simp only [Option.bind_eq_bind, Option.some_bind] at h
          cases hys : xs.mapM stripEquality with
          | none => rw [hys] at h; simp at h
          | some ys =>
              rw [hys] at h
              simp at h
              intro e he
              rw [← h] at he
              rcases List.mem_cons.mp he with rfl | he'
              · exact ⟨x, List.mem_cons_self x xs, hx⟩
              · rcases ih hys e he' with ⟨it, hit, hse⟩
                exact ⟨it, List.mem_cons_of_mem x hit, hse⟩

lemma mapM_map_eqI (eqs : List Equation) :
    (eqs.map Item.eqI).mapM Item.asEquation = some eqs := by
  induction eqs with
  | nil => rfl
  | cons e es ih =>
      rw [List.map_cons, List.mapM_cons, ih]
      rfl

lemma mapM_stripEquality_congr :
    ∀ (l1 l2 : List Item), l1.map stripEquality = l2.map stripEquality →
      l1.mapM stripEquality = l2.mapM stripEquality
  | [], [], _ => rfl
  | [], _ :: _, h => by simp at h
  | _ :: _, [], h => by simp at h
  | a :: as, b :: bs, h => by
      simp only [List.map_cons, List.cons.injEq] at h
      rw [List.mapM_cons, List.mapM_cons, h.1, mapM_stripEquality_congr as bs h.2]

lemma any_append_nodes (args : List Expr) (p q : Expr → Bool)
    (hc : ∀ a ∈ args, q a = (nodes a).any p) :
    args.any q = (args.flatMap nodes).any p := by
  induction args with
  | nil => simp
  | cons a as ih =>
      rw [List.any_cons, List.flatMap_cons, List.any_append]
      rw [hc a (List.mem_cons_self a as)]
      rw [ih (fun x hx => hc x (List.mem_cons_of_mem a hx))]

lemma containsIndexed_eq_any (e : Expr) :
    containsIndexed e = (nodes e).any Expr.isIndexedNode := by
  induction e using Expr.strong_ind with
  | step e ih =>
      rw [nodes_eq, List.any_cons]
      cases e with
      | sym n b => simp [containsIndexed, children, Expr.isIndexedNode]
      | int n => simp [containsIndexed, children, Expr.isIndexedNode]
      | indexed b idxs => simp [containsIndexed, Expr.isIndexedNode]
      | op k args =>
          rw [containsIndexed, containsIndexedL_eq]
          simp only [children] at ih ⊢
          rw [any_append_nodes args Expr.isIndexedNode containsIndexed ih]
          simp [Expr.isIndexedNode]
      | func f args =>
          rw [containsIndexed, containsIndexedL_eq]
          simp only [children] at ih ⊢
          rw [any_append_nodes args Expr.isIndexedNode containsIndexed ih]
          simp [Expr.isIndexedNode]

lemma bang_isEmpty_filter {α : Type} (l : List α) (p : α → Bool) :
    (!(l.filter p).isEmpty) = l.any p := by
  cases hany : l.any p with
  | true =>
      rw [List.any_eq_true] at hany
      rcases hany with ⟨a, ha, hpa⟩
      have hmem : a ∈ l.filter p := List.mem_filter.mpr ⟨ha, hpa⟩
      have hne : l.filter p ≠ [] := by
        intro hf
        rw [hf] at hmem
        simp at hmem
      cases hfE : l.filter p with
      | nil => exact absurd hfE hne
      | cons x xs => rfl
  | false =>
      rw [List.any_eq_false] at hany
      have hf : l.filter p = [] :=
        List.filter_eq_nil_iff.mpr (fun a ha => by simpa using hany a ha)
      rw [hf]
      rfl

lemma access_eq_containsIndexed (b : String) (idxs : List Expr) :
    access (.indexed b idxs) =
      if idxs.any containsIndexed then .full (.indexed b idxs) else .base b := by
  have hfun : (fun i => !(atomsIndexed i).isEmpty) = containsIndexed := by
    funext i
    rw [atomsIndexed, searchAll, bang_isEmpty_filter, ← containsIndexed_eq_any]
  simp only [access]
  rw [hfun]

lemma keySet_true (s : Finset Expr) : keySet s (fun _ => true) = s.image access := by
  rw [keySet]
  congr 1
  apply Finset.filter_true_of_mem
  intro x hx
  rfl

lemma keySet_subset (s : Finset Expr) (filt : Expr → Bool) :
    keySet s filt ⊆ s.image access := by
  rw [keySet]
  exact Finset.image_subset_image (Finset.filter_subset _ s)

lemma estimate_memory_ideal_eq (eqs : List Equation) :
    estimate_memory (eqs.map Item.eqI) "ideal" =
      .ok ((keySet (indexedReads eqs) timeFilter ∪
            keySet (indexedWrites eqs) timeFilter).card) := by
  rw [estimate_memory, if_pos (Or.inl rfl), mapM_map_eqI]
  dsimp only
  rw [if_pos rfl]
  rw [modeFilter, if_pos (Or.inl rfl)]

lemma estimate_memory_iws_eq (eqs : List Equation) :
    estimate_memory (eqs.map Item.eqI) "ideal_with_stores" =
      .ok ((keySet (indexedReads eqs) timeFilter).card +
           (keySet (indexedWrites eqs) timeFilter).card) := by
  rw [estimate_memory, if_pos (Or.inr (Or.inl rfl)), mapM_map_eqI]
  dsimp only
  rw [if_neg (by decide)]
  rw [modeFilter, if_pos (Or.inr rfl)]

lemma estimate_memory_realistic_eq (eqs : List Equation) :
    estimate_memory (eqs.map Item.eqI) "realistic" =
      .ok ((keySet (indexedReads eqs) (fun _ => true)).card +
           (keySet (indexedWrites eqs) (fun _ => true)).card) := by
  rw [estimate_memory, if_pos (Or.inr (Or.inr rfl)), mapM_map_eqI]
  dsimp only
  rw [if_neg (by decide)]
  rw [modeFilter, if_neg (by decide)]

/-- C1: for the single equation `u[t+1,x] = u[t,x] + u[t,x-1]` with `u`
time-dependent (the time dimension `t` occurs in its indices),
`estimate_memory` returns 1 under `ideal`, 2 under `ideal_with_stores` and 2
under `realistic`; adding the time-independent read `v[x]` to the right-hand
side leaves `ideal` and `ideal_with_stores` unchanged and raises `realistic`
by 1. -/
theorem estimate_memory_stencil_example :
    estimate_memory [.eqI ⟨.indexed "u" [.op "Add" [.sym "t" true, .int 1], .sym "x" false],
        .op "Add" [.indexed "u" [.sym "t" true, .sym "x" false],
          .indexed "u" [.sym "t" true, .op "Add" [.sym "x" false, .int (-1)]]]⟩]
      "ideal" = .ok 1 ∧
    estimate_memory [.eqI ⟨.indexed "u" [.op "Add" [.sym "t" true, .int 1], .sym "x" false],
        .op "Add" [.indexed "u" [.sym "t" true, .sym "x" false],
          .indexed "u" [.sym "t" true, .op "Add" [.sym "x" false, .int (-1)]]]⟩]
      "ideal_with_stores" = .ok 2 ∧
    estimate_memory [.eqI ⟨.indexed "u" [.op "Add" [.sym "t" true, .int 1], .sym "x" false],
        .op "Add" [.indexed "u" [.sym "t" true, .sym "x" false],
          .indexed "u" [.sym "t" true, .op "Add" [.sym "x" false, .int (-1)]]]⟩]
      "realistic" = .ok 2 ∧
    estimate_memory [.eqI ⟨.indexed "u" [.op "Add" [.sym "t" true, .int 1], .sym "x" false],
        .op "Add" [.indexed "u" [.sym "t" true, .sym "x" false],
          .indexed "u" [.sym "t" true, .op "Add" [.sym "x" false, .int (-1)]],
          .indexed "v" [.sym "x" false]]⟩]
      "ideal" = .ok 1 ∧
    estimate_memory [.eqI ⟨.indexed "u" [.op "Add" [.sym "t" true, .int 1], .sym "x" false],
        .op "Add" [.indexed "u" [.sym "t" true, .sym "x" false],
          .indexed "u" [.sym "t" true, .op "Add" [.sym "x" false, .int (-1)]],
          .indexed "v" [.sym "x" false]]⟩]
      "ideal_with_stores" = .ok 2 ∧
    estimate_memory [.eqI ⟨.indexed "u" [.op "Add" [.sym "t" true, .int 1], .sym "x" false],
        .op "Add" [.indexed "u" [.sym "t" true, .sym "x" false],
          .indexed "u" [.sym "t" true, .op "Add" [.sym "x" false, .int (-1)]],
          .indexed "v" [.sym "x" false]]⟩]
      "realistic" = .ok 3 :=
  ⟨rfl, rfl, rfl, rfl, rfl, rfl⟩

/-- C4: whenever the guarded normalization of the input fails (some element of
the normalized handle is not a SymPy object, so line 48 raises and the bare
`except` fires), `estimate_cost` does not raise: it returns the unavailable
sentinel `none`, which differs from every numeric result and from zero in
particular. -/
theorem estimate_cost_failure_sentinel (handle : Handle) (ef : Bool)
    (h : (normalizeHandle handle).mapM stripEquality = none) :
    estimate_cost handle ef = none ∧ estimate_cost handle ef ≠ some 0 := by
  have hc : estimate_cost handle ef = none := by
    rw [estimate_cost, h]
  refine ⟨hc, ?_⟩
  rw [hc]
  exact fun hx => Option.noConfusion hx

/-- Witness for C4 at the concrete malformed input `Handle.single .bad`. -/
theorem estimate_cost_failure_sentinel_witness :
    estimate_cost (.single .bad) false = none ∧
      estimate_cost (.single .bad) false ≠ some 0 :=
  estimate_cost_failure_sentinel (.single .bad) false rfl

/-- C5: for every handle and every mode string other than `ideal`,
`ideal_with_stores` and `realistic`, `estimate_memory` fails at the `assert`
of line 81, before any computation on the input: the result is the assertion
failure whatever the handle contains, and no partial result is produced. -/
theorem estimate_memory_invalid_mode (handle : List Item) (mode : String)
    (h1 : mode ≠ "ideal") (h2 : mode ≠ "ideal_with_stores") (h3 : mode ≠ "realistic") :
    estimate_memory handle mode = .error .assertionError := by
  rw [estimate_memory, if_neg]
  rintro (h | h | h)
  · exact h1 h
  · exact h2 h
  · exact h3 h

/-- Witness for C5 at the concrete mode string `"compulsory"`. -/
theorem estimate_memory_invalid_mode_witness :
    estimate_memory [.eqI ⟨.indexed "u" [.sym "t" true], .indexed "u" [.sym "t" true]⟩]
      "compulsory" = .error .assertionError :=
  estimate_memory_invalid_mode _ "compulsory" (by decide) (by decide) (by decide)

/-- C7: an equation contributes only its rhs to `estimate_cost`: both for a
single supplied equation and for an equation anywhere inside a supplied list,
replacing the equation by its bare rhs leaves the estimate unchanged,
whatever the structure of the lhs write target. -/
theorem estimate_cost_equation_rhs_only :
    (∀ (l r : Expr) (ef : Bool),
        estimate_cost (.single (.eqI ⟨l, r⟩)) ef = estimate_cost (.single (.exprI r)) ef)
    ∧ (∀ (pre post : List Item) (l r : Expr) (ef : Bool),
        estimate_cost (.listH (pre ++ .eqI ⟨l, r⟩ :: post)) ef =
          estimate_cost (.listH (pre ++ .exprI r :: post)) ef) := by
  constructor
  · intro l r ef
    rfl
  · intro pre post l r ef
    rw [estimate_cost, estimate_cost]
    simp only [normalizeHandle]
    rw [mapM_stripEquality_congr (pre ++ .eqI ⟨l, r⟩ :: post) (pre ++ .exprI r :: post)]
    simp [stripEquality]

/-- C2: a retrieved n-ary operation with `k` operands of which `m` are integer
literals contributes `(k - 1) - m` to the total, whatever the operator kind:
on a single operation over terminal operands `estimate_cost` returns exactly
that value; in particular a binary operation over two non-integer terminals
yields 1, and `i + 1` (one non-integer terminal, one integer literal)
yields 0. -/
theorem estimate_cost_op_formula :
    (∀ (ef : Bool) (kind : String) (args : List Expr),
        (∀ a ∈ args, Expr.isAtom a = true) →
        estimate_cost (.single (.exprI (.op kind args))) ef =
          some (((args.length : Int) - 1) - ((args.filter Expr.isInteger).length : Int)))
    ∧ (∀ (ef : Bool) (kind : String) (a b : Expr),
        Expr.isAtom a = true → Expr.isAtom b = true →
        Expr.isInteger a = false → Expr.isInteger b = false →
        estimate_cost (.single (.exprI (.op kind [a, b]))) ef = some 1)
    ∧ (∀ (ef : Bool) (kind : String),
        estimate_cost (.single (.exprI (.op kind [.sym "i" false, .int 1]))) ef = some 0) := by
  have main : ∀ (ef : Bool) (kind : String) (args : List Expr),
      (∀ a ∈ args, Expr.isAtom a = true) →
      estimate_cost (.single (.exprI (.op kind args))) ef =
        some (((args.length : Int) - 1) - ((args.filter Expr.isInteger).length : Int)) := by
    intro ef kind args h
    rw [estimate_cost_single, retrieve_ops_op_terminal kind args h]
    simp only [List.map_cons, List.map_nil, List.sum_cons, List.sum_nil, add_zero, opFlops]
    congr 1
    ring
  refine ⟨main, ?_, ?_⟩
  · intro ef kind a b ha hb hia hib
    have hterm : ∀ x ∈ [a, b], Expr.isAtom x = true := by
      intro x hx
      rcases List.mem_cons.mp hx with rfl | hx
      · exact ha
      rcases List.mem_cons.mp hx with rfl | hx
      · exact hb
      simp at hx
    rw [main ef kind [a, b] hterm]
    rw [List.filter_cons, List.filter_cons, hia, hib]
    simp
  · intro ef kind
    rw [main ef kind [.sym "i" false, .int 1] (by decide)]
    rfl

/-- Witness for C2 at the operation `Mul(a, b, 2)`: three operands, one
integer literal, contribution `(3 - 1) - 1 = 1`. -/
theorem estimate_cost_op_formula_witness :
    estimate_cost (.single (.exprI (.op "Mul" [.sym "a" false, .sym "b" false, .int 2])))
      false = some 1 := by
  have h := estimate_cost_op_formula.1 false "Mul"
    [.sym "a" false, .sym "b" false, .int 2] (by decide)
  exact h.trans (by decide)

/-- Counterexample to C3 as stated: on the (unevaluated) operation `Add(1, 2)`
whose operands are both integer literals, `estimate_cost` succeeds and returns
`-1`, which is negative. -/
theorem estimate_cost_negative_result :
    estimate_cost (.single (.exprI (.op "Add" [.int 1, .int 2]))) false = some (-1) ∧
      ¬ (0 : Int) ≤ -1 :=
  ⟨rfl, by decide⟩

/-- C3 (amended): whenever `estimate_cost` succeeds and every retrieved
operation node of the input has at least one operand that is not an integer
literal, the returned total is non-negative. -/
theorem estimate_cost_nonneg (handle : Handle) (ef : Bool) (r : Int)
    (hr : estimate_cost handle ef = some r)
    (h : ∀ it ∈ normalizeHandle handle, ∀ e : Expr, stripEquality it = some e →
         ∀ o ∈ retrieve_ops e, hasNonIntOperand o = true) :
    0 ≤ r := by
  cases hm : (normalizeHandle handle).mapM stripEquality with
  | none =>
      rw [estimate_cost, hm] at hr
      exact absurd hr (by simp)
  | some exprs =>
      have hc := estimate_cost_some handle ef exprs hm
      rw [hc] at hr
      have hr' := Option.some.inj hr
      rw [← hr']
      apply List.sum_nonneg
      intro x hx
      rw [List.mem_map] at hx
      rcases hx with ⟨o, ho, rfl⟩
      rw [List.mem_flatten] at ho
      rcases ho with ⟨ops, hops, hoin⟩
      rw [List.mem_map] at hops
      rcases hops with ⟨e, he, rfl⟩
      rcases mapM_stripEquality_mem hm e he with ⟨it, hit, hse⟩
      exact opFlops_nonneg ef o (h it hit e hse o hoin)

/-- Witness for C3's amended statement at `Add(a, b)`. -/
theorem estimate_cost_nonneg_witness :
    estimate_cost (.single (.exprI (.op "Add" [.sym "a" false, .sym "b" false]))) false =
      some 1 ∧ (0 : Int) ≤ 1 := by
  refine ⟨rfl, ?_⟩
  apply estimate_cost_nonneg (.single (.exprI (.op "Add" [.sym "a" false, .sym "b" false])))
    false 1 rfl
  intro it hit e hse o ho
  simp only [normalizeHandle, List.mem_singleton] at hit
  subst hit
  rw [stripEquality] at hse
  cases hse
  have hre : retrieve_ops (.op "Add" [.sym "a" false, .sym "b" false]) =
      [.op "Add" [.sym "a" false, .sym "b" false]] := rfl
  rw [hre, List.mem_singleton] at ho
  subst ho
  rfl

/-- C8: a function call to sine contributes 50 when `estimate_functions` is
enabled and 1 when it is disabled; a call to a function outside the weight
table (neither sine nor cosine) contributes 1 in either configuration. -/
theorem estimate_cost_function_weights :
    (∀ (args : List Expr), (∀ a ∈ args, Expr.isAtom a = true) →
        estimate_cost (.single (.exprI (.func "sin" args))) true = some 50)
    ∧ (∀ (args : List Expr), (∀ a ∈ args, Expr.isAtom a = true) →
        estimate_cost (.single (.exprI (.func "sin" args))) false = some 1)
    ∧ (∀ (f : String) (args : List Expr) (ef : Bool),
        f ≠ "sin" → f ≠ "cos" → (∀ a ∈ args, Expr.isAtom a = true) →
        estimate_cost (.single (.exprI (.func f args))) ef = some 1) := by
  refine ⟨?_, ?_, ?_⟩
  · intro args h
    rw [estimate_cost_single, retrieve_ops_func_terminal "sin" args h]
    simp [opFlops, external_functions]
  · intro args h
    rw [estimate_cost_single, retrieve_ops_func_terminal "sin" args h]
    simp [opFlops]
  · intro f args ef hf1 hf2 h
    rw [estimate_cost_single, retrieve_ops_func_terminal f args h]
    cases ef <;> simp [opFlops, external_functions, hf1, hf2]

/-- Witness for C8 at `sin(x)` with function estimation enabled. -/
theorem estimate_cost_function_weights_witness :
    estimate_cost (.single (.exprI (.func "sin" [.sym "x" false]))) true = some 50 :=
  estimate_cost_function_weights.1 [.sym "x" false] (by decide)

/-- C6: `access` keys an irregular access (some index contains a nested
indexed access) by the full node, and a regular access by its base identity
alone; consequently the irregular read `A[B[i]]` keeps its own distinct key
even in the presence of a regular access to the same base `A` — on the
equation `C[i] = A[B[i]] + A[i]` the realistic estimate counts the keys
`A[B[i]]`, `B`, `A` and `C`, i.e. 4. -/
theorem access_key_policy :
    (∀ (b : String) (idxs : List Expr), idxs.any containsIndexed = true →
        access (.indexed b idxs) = .full (.indexed b idxs))
    ∧ (∀ (b : String) (idxs : List Expr), idxs.any containsIndexed = false →
        access (.indexed b idxs) = .base b)
    ∧ (access (.indexed "A" [.indexed "B" [.sym "i" false]]) =
        .full (.indexed "A" [.indexed "B" [.sym "i" false]])
       ∧ access (.indexed "A" [.sym "i" false]) = .base "A"
       ∧ AccessKey.full (.indexed "A" [.indexed "B" [.sym "i" false]]) ≠ .base "A"
       ∧ estimate_memory [.eqI ⟨.indexed "C" [.sym "i" false],
            .op "Add" [.indexed "A" [.indexed "B" [.sym "i" false]],
                       .indexed "A" [.sym "i" false]]⟩] "realistic" = .ok 4) := by
  refine ⟨?_, ?_, rfl, rfl, by decide, rfl⟩
  · intro b idxs h
    rw [access_eq_containsIndexed, if_pos h]
  · intro b idxs h
    rw [access_eq_containsIndexed, if_neg]
    simp [h]

/-- Witness for C6 at the irregular access `A[B[i]]`. -/
theorem access_key_policy_witness :
    access (.indexed "A" [.indexed "B" [.sym "j" false]]) =
      .full (.indexed "A" [.indexed "B" [.sym "j" false]]) :=
  access_key_policy.1 "A" [.indexed "B" [.sym "j" false]] (by decide)

/-- C9: the occurrence counter maps every node satisfying the query to its
total number of occurrences summed over all supplied trees (multiset
semantics), and holds no other keys: on a node failing the query the count is
zero. -/
theorem count_occurrences_spec (exprs : List Expr) (query : Expr → Bool) (k : Expr) :
    (query k = true → count exprs query k = (exprs.map (occurrences k)).sum)
    ∧ (query k = false → count exprs query k = 0) := by
  have key : count exprs query k =
      if query k = true then (exprs.map (occurrences k)).sum else 0 := by
    rw [count, count_flatMap]
    have hpt : ∀ e ∈ exprs, (searchAll query e).count k =
        if query k = true then occurrences k e else 0 := by
      intro e he
      rw [searchAll, count_filter_eq, occurrences_eq_count]
    rw [List.map_congr_left hpt]
    by_cases hq : query k = true
    · simp [hq]
    · simp [hq]
  constructor
  · intro h
    rw [key, if_pos h]
  · intro h
    rw [key]
    simp [h]

/-- Witness for C9: the symbol `x` occurs twice in `Add(x, x)` and is an atom,
so the counter maps it to 2. -/
theorem count_occurrences_spec_witness :
    count [.op "Add" [.sym "x" false, .sym "x" false]] Expr.isAtom (.sym "x" false) = 2 := by
  have h := (count_occurrences_spec [.op "Add" [.sym "x" false, .sym "x" false]]
      Expr.isAtom (.sym "x" false)).1 rfl
  exact h.trans (by decide)

/-- C10: for every sequence of equations the three traffic modes are
monotonically ordered: `ideal ≤ ideal_with_stores ≤ realistic` — the union's
cardinality never exceeds the sum of the two cardinalities, and the
time-dimension filter only shrinks the read and write key sets. -/
theorem estimate_memory_mode_monotone (eqs : List Equation) :
    ∃ a b c : Nat,
      estimate_memory (eqs.map Item.eqI) "ideal" = .ok a ∧
      estimate_memory (eqs.map Item.eqI) "ideal_with_stores" = .ok b ∧
      estimate_memory (eqs.map Item.eqI) "realistic" = .ok c ∧
      a ≤ b ∧ b ≤ c := by
  refine ⟨_, _, _, estimate_memory_ideal_eq eqs, estimate_memory_iws_eq eqs,
    estimate_memory_realistic_eq eqs, Finset.card_union_le _ _, ?_⟩
  have hr : keySet (indexedReads eqs) timeFilter ⊆
      keySet (indexedReads eqs) (fun _ => true) := by
    rw [keySet_true]
    exact keySet_subset _ _
  have hw : keySet (indexedWrites eqs) timeFilter ⊆
      keySet (indexedWrites eqs) (fun _ => true) := by
    rw [keySet_true]
    exact keySet_subset _ _
  exact Nat.add_le_add (Finset.card_le_card hr) (Finset.card_le_card hw)
